import Mathlib

/-!
Verification development for the airport-status feed parser
(`parser.py`): a script that classifies short Russian-language
notices into open/closed status transitions for airports, resolves
airport names to ICAO codes, maintains a per-airport event history,
and reconstructs closure periods from the event log.

Modelling conventions:
* Python `datetime` values are represented by their instant (an
  integer number of seconds); `astimezone` is instant-preserving and
  all datetimes in the program are normalised to the MSK zone, so the
  zone is presentational and omitted.
* Python statuses are the literal strings `"open"` / `"closed"`, as
  in the source.
* Python dicts are insertion-ordered association lists over `String`
  keys; `hget`/`hset`/`herase`/`asetdefault` mirror `d[k]`,
  `d[k] = v`, `del d[k]` and `d.setdefault(k, v)`.
* Calls into external libraries (`re` searches, `html.unescape`,
  `unicodedata.normalize`, `str.lower`, `dateutil.parser.parse`) are
  abstracted as fields of a `Libs` record threaded through every
  function; the control flow and all state manipulation of the
  source are translated directly.
-/

namespace AirportStatus

/-- One history event: `{"dt": datetime, "status": "open"|"closed"}`. -/
structure Ev where
  dt : Int
  status : String
deriving Repr, DecidableEq

/-- Placeholder event used only to express Python's `list[-1]` via
`getLastD`; every use in the development is guarded so the list is
nonempty (Python would raise `IndexError` otherwise). -/
def dummyEv : Ev := ⟨0, ""⟩

/-- One airport record of the history map: `{"name": ..., "icao": ...,
"current": ..., "events": [...]}`. A record freshly created by
`hist.setdefault` has no `"current"` key yet; we model the absent key
as `""` (the code never reads `current` before writing it). -/
structure Rec where
  name : String
  icao : Option String
  events : List Ev
  current : String
deriving Repr, DecidableEq

/-- The history map `hist`: a Python dict from key (ICAO code or
provisional slug) to record, modelled as an insertion-ordered
association list. -/
abbrev HistT : Type := List (String × Rec)

/-- Python `d.get(k)` / `d[k]` on an association list. -/
def hget : List (String × α) → String → Option α
  | [], _ => none
  | p :: t, k => if p.1 == k then some p.2 else hget t k

/-- Python `d[k] = v`: replace in place when the key is present
(keeping its position), append otherwise. -/
def hset : List (String × α) → String → α → List (String × α)
  | [], k, v => [(k, v)]
  | p :: t, k, v => if p.1 == k then (k, v) :: t else p :: hset t k v

/-- Python `del d[k]` (callers in the source only delete present keys). -/
def herase : List (String × α) → String → List (String × α)
  | [], _ => []
  | p :: t, k => if p.1 == k then herase t k else p :: herase t k

/-- Python `d.setdefault(k, v)`: insert only when the key is absent. -/
def asetdefault : List (String × α) → String → α → List (String × α)
  | [], k, v => [(k, v)]
  | p :: t, k, v => if p.1 == k then p :: t else p :: asetdefault t k v

/-- Python's stable `sorted(events, key=lambda x: x["dt"])`, realised
as a stable insertion sort (any two stable sorts by the same key
compute the same list, and insertion sort reduces in the kernel). -/
def pySortEvs (evs : List Ev) : List Ev :=
  evs.insertionSort (fun a b => a.dt ≤ b.dt)

/-- `merge_slug(hist, slug_key, icao_key)`: merge the event logs of the
provisional record and the canonical record, re-sorted by timestamp,
store the merge under the canonical key with `current` set to the last
merged event's status, and delete the provisional key.  The source
indexes `hist[slug_key]` / `hist[icao_key]` directly and would raise
`KeyError` when a key is absent; `process` only calls it under the
guard `icao in hist and slug(name) in hist`, so the fallback branch
returning `h` unchanged is unreachable from `process`. -/
def merge_slug (h : HistT) (slug_key icao_key : String) : HistT :=
  match hget h slug_key, hget h icao_key with
  | some rs, some ri =>
    let merged := pySortEvs (rs.events ++ ri.events)
    herase (hset h icao_key ⟨ri.name, ri.icao, merged, (merged.getLastD dummyEv).status⟩) slug_key
  | _, _ => h

/-- One closure period as built by `recompute_periods`.  The Python
dict stores `fmt(start)`, `fmt(end)` (or the literal ongoing marker
`"— идёт"`, modelled as `none`) and `duration_str(end - start)`; the
embedding keeps the underlying instants and the timedelta in seconds,
since `fmt`/`duration_str` are display formatting of exactly these
values. -/
structure Period where
  start : Int
  stop : Option Int
  dur : Int
deriving Repr, DecidableEq

/-- The scan loop of `recompute_periods`: state `start` is `None` or
the timestamp at which the current period opened.  The two `if`
statements of the loop body are translated case by case (an event's
status cannot be both `"closed"` and `"open"`, so the second `if`
never sees the `start` just set by the first). -/
def recomputeGo (now : Int) : Option Int → List Ev → List Period
  | none, [] => []
  | some s, [] => [⟨s, none, now - s⟩]
  | none, ev :: rest =>
    if ev.status = "closed" then recomputeGo now (some ev.dt) rest
    else recomputeGo now none rest
  | some s, ev :: rest =>
    if ev.status = "open" then ⟨s, some ev.dt, ev.dt - s⟩ :: recomputeGo now none rest
    else recomputeGo now (some s) rest

/-- `recompute_periods(ap)`: derive the closure periods from the
record's event log in one linear scan.  The Python function mutates
`ap["periods"]` and reads the wall clock for a trailing unclosed
period; the embedding returns the list and takes `now` explicitly. -/
def recompute_periods (now : Int) (evs : List Ev) : List Period :=
  recomputeGo now none evs

-- ───── association-list lemmas ─────

theorem hget_hset_self (h : List (String × α)) (k : String) (v : α) :
    hget (hset h k v) k = some v := by
  induction h with
  | nil => simp [hget, hset]
  | cons p t ih =>
    by_cases hp : p.1 = k
    · simp [hget, hset, hp]
    · simp [hget, hset, hp, ih]

theorem hget_hset_ne (h : List (String × α)) (k k' : String) (v : α) (hne : k' ≠ k) :
    hget (hset h k v) k' = hget h k' := by
  induction h with
  | nil => simp [hget, hset, Ne.symm hne]
  | cons p t ih =>
    by_cases hp : p.1 = k
    · simp [hget, hset, hp, Ne.symm hne]
    · simp [hget, hset, hp, ih]

theorem hget_herase_self (h : List (String × α)) (k : String) :
    hget (herase h k) k = none := by
  induction h with
  | nil => simp [hget, herase]
  | cons p t ih =>
    by_cases hp : p.1 = k
    · simp [herase, hp, ih]
    · simp [hget, herase, hp, ih]

theorem hget_herase_ne (h : List (String × α)) (k k' : String) (hne : k' ≠ k) :
    hget (herase h k) k' = hget h k' := by
  induction h with
  | nil => simp [herase]
  | cons p t ih =>
    by_cases hp : p.1 = k
    · simp [hget, herase, hp, Ne.symm hne, ih]
    · simp [hget, herase, hp, ih]

theorem mem_hset (h : List (String × α)) (k : String) (v : α) (p : String × α)
    (hp : p ∈ hset h k v) : p ∈ h ∨ p = (k, v) := by
  induction h with
  | nil => simp [hset] at hp; simp [hp]
  | cons q t ih =>
    by_cases hq : q.1 = k
    · simp only [hset, hq, beq_self_eq_true, if_pos] at hp
      rcases List.mem_cons.1 hp with hh | hh
      · exact Or.inr hh
      · exact Or.inl (List.mem_cons_of_mem _ hh)
    · simp only [hset, beq_eq_false_iff_ne, ne_eq, hq, not_false_eq_true, if_neg,
        beq_iff_eq] at hp
      rcases List.mem_cons.1 hp with hh | hh
      · exact Or.inl (hh ▸ List.mem_cons_self _ _)
      · rcases ih hh with h1 | h1
        · exact Or.inl (List.mem_cons_of_mem _ h1)
        · exact Or.inr h1

theorem mem_herase (h : List (String × α)) (k : String) (p : String × α)
    (hp : p ∈ herase h k) : p ∈ h := by
  induction h with
  | nil => simp [herase] at hp
  | cons q t ih =>
    by_cases hq : q.1 = k
    · simp only [herase, hq, beq_self_eq_true, if_pos] at hp
      exact List.mem_cons_of_mem _ (ih hp)
    · simp only [herase, beq_iff_eq, hq, if_neg, not_false_eq_true] at hp
      rcases List.mem_cons.1 hp with hh | hh
      · exact hh ▸ List.mem_cons_self _ _
      · exact List.mem_cons_of_mem _ (ih hh)

theorem hget_some_mem (h : List (String × α)) (k : String) (r : α)
    (hr : hget h k = some r) : (k, r) ∈ h := by
  induction h with
  | nil => simp [hget] at hr
  | cons p t ih =>
    by_cases hp : p.1 = k
    · simp only [hget, hp, beq_self_eq_true, if_pos, Option.some.injEq] at hr
      have : p = (k, r) := by cases p; simp_all
      exact this ▸ List.mem_cons_self _ _
    · simp only [hget, beq_iff_eq, hp, if_neg, not_false_eq_true] at hr
      exact List.mem_cons_of_mem _ (ih hr)

-- quick sanity examples
example : recompute_periods 100 [⟨1, "closed"⟩, ⟨5, "open"⟩] = [⟨1, some 5, 4⟩] := by decide
example : recompute_periods 100 [⟨1, "closed"⟩] = [⟨1, none, 99⟩] := by decide

-- ───── feed items and library-call abstraction ─────

/-- Values a feed item's fields can hold (the JSON-like universe that
`feedparser` produces): strings, numbers, lists and dicts.  `vOther`
stands for any further shape (e.g. `None` inside a list). -/
inductive Val where
  | vStr : String → Val
  | vInt : Int → Val
  | vList : List Val → Val
  | vDict : List (String × Val) → Val
  | vOther : Val

/-- One raw feed entry `e`.  A `none` field models an absent key;
`published` is the raw publication-timestamp string (`e["published"]`
raises `KeyError` when absent, which aborts the run like any other
uncaught exception). -/
structure Item where
  title : Option Val
  summary : Option Val
  description : Option Val
  content : Option Val
  published : Option String
  link : Option Val

/-- The external library calls of the script, abstracted as opaque
deterministic functions: the two status regexes (`RX_CLOSED.search`,
`RX_OPEN.search`), `html.unescape`, `unicodedata.normalize` for NFC
and NFKD, `str.lower`, the `RX_CODE.finditer` scan (returning the
`name`/`icao` capture-group pairs in match order), compiled-name-regex
search (`reSearch stem txt` is `re.search` of the pattern
`\b stem \w*` built by `make_regex`), and `dateutil.parser.parse`
composed with `astimezone(MSK)` (returning the instant, or `none` when
parsing raises). -/
structure Libs where
  rxClosedSearch : String → Bool
  rxOpenSearch : String → Bool
  htmlUnescape : String → String
  nfc : String → String
  nfkd : String → String
  pyLower : String → String
  codeFind : String → List (String × String)
  reSearch : String → String → Bool
  parseDt : String → Option Int

/-- `normalize(t) = unicodedata.normalize("NFC", html.unescape(t))`. -/
def normalize (L : Libs) (t : String) : String :=
  L.nfc (L.htmlUnescape t)

/-- Python `str(v)` (total; the rendering of non-string shapes is
immaterial to the verified properties, only that it never raises). -/
def pyStr : Val → String
  | .vStr s => s
  | .vInt n => toString n
  | .vList _ => "(list)"
  | .vDict _ => "(dict)"
  | .vOther => "None"

/-- The dict-value half of `c.get("value", "")`. -/
def dgetD (d : List (String × Val)) (k : String) (dflt : Val) : Val :=
  (hget d k).getD dflt

/-- The parts contributed by `e.get("content")`: a list keeps its dict
elements' `"value"` entries, a dict contributes its `"value"`, a plain
string contributes itself, and any other shape (including an absent
key) contributes nothing. -/
def contentParts : Option Val → List Val
  | some (.vList cs) =>
    cs.filterMap (fun c => match c with
      | .vDict d => some (dgetD d "value" (.vStr ""))
      | _ => none)
  | some (.vDict d) => [dgetD d "value" (.vStr "")]
  | some (.vStr s) => [.vStr s]
  | some _ => []
  | none => []

/-- Check that every joined part is a string, returning the strings
(the success condition of Python's `str.join`). -/
def allStr? : List Val → Option (List String)
  | [] => some []
  | .vStr s :: t => (allStr? t).map (fun ss => s :: ss)
  | _ :: _ => none

/-- Python `"\n".join(parts)`: raises `TypeError` when an element is
not a string. -/
def pyJoinNl (vs : List Val) : Except String String :=
  match allStr? vs with
  | some ss => .ok (String.intercalate "\n" ss)
  | none => .error "TypeError: sequence item is not a str"

/-- `full_text(e)`: collect title/summary/description (absent keys
default to `""`), add the content parts, join with newlines and
normalize.  The join raises when a present field holds a non-string
value, so the result is `Except`-valued. -/
def full_text (L : Libs) (e : Item) : Except String String :=
  match pyJoinNl ([(e.title).getD (.vStr ""), (e.summary).getD (.vStr ""),
      (e.description).getD (.vStr "")] ++ contentParts e.content) with
  | .ok t => .ok (normalize L t)
  | .error m => .error m

/-- `classify(txt)`: closed-pattern test first, open-pattern test
second; falls through to `None` (Python's implicit return). -/
def classify (L : Libs) (txt : String) : Option String :=
  if L.rxClosedSearch txt then some "closed"
  else if L.rxOpenSearch txt then some "open"
  else none

/-- `slug(name) = unicodedata.normalize("NFKD", name).lower().replace('ё', 'е')`
(a single-character replace, realised as a character map). -/
def slug (L : Libs) (name : String) : String :=
  String.mk ((L.pyLower (L.nfkd name)).toList.map (fun c => if c = 'ё' then 'е' else c))

/-- Python `str.strip()`: drop whitespace at both ends (realised on
the character list so it reduces in the kernel). -/
def pyStrip (s : String) : String :=
  String.mk (((s.toList.dropWhile Char.isWhitespace).reverse.dropWhile
    Char.isWhitespace).reverse)

/-- Uppercase and lowercase Russian vowels matched case-insensitively
by `re.sub(r"[АОУЫЭЕЁИЮЯ]$", "", name, flags=re.I)`. -/
def ruVowels : List Char :=
  ['А', 'О', 'У', 'Ы', 'Э', 'Е', 'Ё', 'И', 'Ю', 'Я',
   'а', 'о', 'у', 'ы', 'э', 'е', 'ё', 'и', 'ю', 'я']

/-- The stem computed by `make_regex(name)`: strip one trailing vowel,
fall back to the full name when the stem is shorter than 4 characters.
The compiled pattern `\b{stem}\w*` is represented by its stem; the
`Libs.reSearch` oracle interprets it. -/
def make_regexStem (name : String) : String :=
  let cs := name.toList
  let stem := match cs.getLast? with
    | some c => if ruVowels.contains c then String.mk cs.dropLast else name
    | none => name
  if stem.length < 4 then name else stem

/-- The static seed table `ICAO_MAP` (name → ICAO). -/
def ICAO_MAP0 : List (String × String) :=
  [("Внуково", "UUWW"), ("Домодедово", "UUDD"), ("Шереметьево", "UUEE"),
   ("Жуковский", "UUBW"), ("Пулково", "ULLI"), ("Казань", "UWKD"),
   ("Нижний Новгород", "UWGG"), ("Тамбов", "UUOT"), ("Ижевск", "USII"),
   ("Нижнекамск", "UWKE"), ("Саратов", "UWSG"), ("Владимир", "UUBY"),
   ("Ярославль", "UUDL"), ("Калуга", "UUBC")]

/-- `NAME_RE = {icao: make_regex(n) for n, icao in ICAO_MAP.items()}`. -/
def NAME_RE0 : List (String × String) :=
  ICAO_MAP0.map (fun p => (p.2, make_regexStem p.1))

/-- The process-wide mutable name directory: `ICAO_MAP` (name → icao)
and `NAME_RE` (icao → stem pattern), threaded explicitly instead of
being module-level globals. -/
structure Dir where
  icaoMap : List (String × String)
  nameRe : List (String × String)
deriving Repr, DecidableEq

/-- A resolver candidate `(key, name, icao)` as appended to `found`. -/
structure Cand where
  key : String
  name : String
  icao : Option String
deriving Repr, DecidableEq

/-- `extract_airports(txt)`.  Pass (1) scans `RX_CODE` matches: each
appends `(icao, name, icao)` and `setdefault`s the two directory
tables.  Pass (2) iterates over the directory's names (as mutated by
pass 1) chained with the names found in pass 1 (the list comprehension
`[f[1] for f in found]` is evaluated when `chain` is called, i.e.
right after pass 1), appending `(icao or slug(name), name, icao)` for
every name whose stem pattern occurs in the text.  Finally duplicates
are collapsed through the dict `uniq` (first insertion keeps the
position, the last value wins) and `uniq.values()` is returned,
together with the updated directory. -/
def extract_airports (L : Libs) (txt : String) (d : Dir) : List Cand × Dir :=
  let ms := (L.codeFind txt).map (fun p => (pyStrip p.1, p.2))
  let found1 : List Cand := ms.map (fun p => ⟨p.2, p.1, some p.2⟩)
  let d1 : Dir := ms.foldl
    (fun d p => ⟨asetdefault d.icaoMap p.1 p.2,
                 asetdefault d.nameRe p.2 (make_regexStem p.1)⟩) d
  let names : List String := d1.icaoMap.map (fun p => p.1) ++ found1.map (fun c => c.name)
  let found2 : List Cand := found1 ++ names.filterMap (fun name =>
    let pat := match hget d1.icaoMap name with
      | some i => (hget d1.nameRe i).getD (make_regexStem name)
      | none => make_regexStem name
    if L.reSearch pat txt then
      let icao := hget d1.icaoMap name
      some ⟨icao.getD (slug L name), name, icao⟩
    else none)
  let uniq : List (String × Cand) := found2.foldl (fun u c => hset u c.key c) []
  (uniq.map (fun p => p.2), d1)

-- ───── main loop ─────

/-- Python `int(s)`: optional surrounding whitespace, optional sign,
then a nonempty digit string; `none` models the `ValueError`. -/
def pyInt? (s : String) : Option Int :=
  let core := ((s.toList.dropWhile Char.isWhitespace).reverse.dropWhile
    Char.isWhitespace).reverse
  let signed := match core with
    | '+' :: rest => (rest, (1 : Int))
    | '-' :: rest => (rest, (-1 : Int))
    | rest => (rest, (1 : Int))
  if signed.1 ≠ [] ∧ signed.1.all Char.isDigit then
    some (signed.2 *
      (signed.1.foldl (fun acc c => acc * 10 + (c.toNat - '0'.toNat)) 0 : Nat))
  else none

/-- `str(item.get("link", "")).rstrip("/").split("/")[-1]`: the final
path segment of the item's link after stripping trailing slashes,
i.e. the suffix following the last remaining `/` (and the whole
string when no `/` remains, including the empty string — `split`
never returns an empty list). -/
def linkLastSegment (e : Item) : String :=
  let s := pyStr ((e.link).getD (.vStr ""))
  let stripped := (s.toList.reverse.dropWhile (fun c => c = '/')).reverse
  String.mk ((stripped.reverse.takeWhile (fun c => c ≠ '/')).reverse)

/-- `msg_id(item)`: the decimal integer in the final path segment of
the link, with `ValueError` from `int` caught and turned into `0`.
`item.get("link", "")` never raises and `str(...)` is total, so
`msg_id` is total. -/
def msg_id (e : Item) : Int :=
  match pyInt? (linkLastSegment e) with
  | some n => n
  | none => 0

/-- `sorted(fp.entries, key=msg_id)` (Python's stable ascending sort,
realised as a stable insertion sort as with `pySortEvs`). -/
def sortEntries (entries : List Item) : List Item :=
  entries.insertionSort (fun a b => msg_id a ≤ msg_id b)

/-- The lazy-reconciliation guard opening the candidate loop body:
`if icao and icao in hist and slug(name) in hist: merge_slug(...)`. -/
def candMergeStep (L : Libs) (hist : HistT) (c : Cand) : HistT :=
  match c.icao with
  | some i =>
    if (hget hist i).isSome ∧ (hget hist (slug L c.name)).isSome then
      merge_slug hist (slug L c.name) i
    else hist
  | none => hist

/-- The promotion branch of the candidate loop body: given the record
`r0` fetched (or freshly created) by `hist.setdefault(key, ...)`, when
`not rec.get("icao") and icao` set the record's identifier, and when
additionally `key != icao` move the record to the identifier key
(`hist[icao] = rec; del hist[key]; key = icao`).  Returns the final
key, the map, and the record to which the event is appended. -/
def candPromoteStep (hist1 : HistT) (r0 : Rec) (c : Cand) : String × HistT × Rec :=
  match r0.icao, c.icao with
  | none, some i =>
    let r1 : Rec := ⟨r0.name, some i, r0.events, r0.current⟩
    if c.key ≠ i then (i, herase (hset hist1 i r1) c.key, r1)
    else (c.key, hist1, r1)
  | _, _ => (c.key, hist1, r0)

/-- The body of the inner `for key, name, icao in extract_airports(txt)`
loop.  Mirrors the source statement by statement: the lazy
`merge_slug` under its guard, `hist.setdefault`, the promotion branch,
then the event append and the unconditional `current` update.  A
Python record freshly inserted by `setdefault` is aliased by `rec`,
so mutating `rec` and re-inserting under the final key yields the
same map. -/
def processCand (L : Libs) (dtv : Int) (status : String) (hist : HistT) (c : Cand) : HistT :=
  let hist1 : HistT := candMergeStep L hist c
  let r0 : Rec := (hget hist1 c.key).getD ⟨c.name, c.icao, [], ""⟩
  let step : String × HistT × Rec := candPromoteStep hist1 r0 c
  hset step.2.1 step.1 ⟨step.2.2.name, step.2.2.icao,
    step.2.2.events ++ [⟨dtv, status⟩], status⟩

/-- The state mutated by one run: the history map and the name
directory (module-level `ICAO_MAP` / `NAME_RE` in the source). -/
structure PState where
  hist : HistT
  dir : Dir

/-- One iteration of `for e in sorted(fp.entries, key=msg_id)`:
normalize, classify (skip on no signal), parse the publication
timestamp (`e["published"]` / `dparse.parse` failures propagate as an
uncaught exception, modelled as `.error`), resolve the airports, and
run the candidate loop. -/
def processItem (L : Libs) (s : PState) (e : Item) : Except String PState :=
  match full_text L e with
  | .error m => .error m
  | .ok txt =>
    match classify L txt with
    | none => .ok s
    | some status =>
      match e.published with
      | none => .error "KeyError: published"
      | some p =>
        match L.parseDt p with
        | none => .error "dateutil.parser.ParserError"
        | some dtv =>
          let cd := extract_airports L txt s.dir
          .ok ⟨cd.1.foldl (processCand L dtv status) s.hist, cd.2⟩

/-- The item loop of `process` (an uncaught exception aborts the rest
of the loop, exactly like the `Except` short-circuit here). -/
def processItems (L : Libs) : PState → List Item → Except String PState
  | s, [] => .ok s
  | s, e :: es =>
    match processItem L s e with
    | .ok s' => processItems L s' es
    | .error m => .error m

/-- The core of `process()`: load gives the starting state, the feed
gives `entries`, and the loop runs over the entries sorted by
`msg_id`.  (Fetching, `save_hist` and `build_site` are the excluded
I/O collaborators.) -/
def process (L : Libs) (s : PState) (entries : List Item) : Except String PState :=
  processItems L s (sortEntries entries)

-- ───── persistence ─────

/-- The ISO-8601 timestamp string written by `datetime.isoformat` and
read back by `datetime.fromisoformat`: the encoding is a bijection
onto the instants it denotes, so the string is modelled by the instant
it carries. -/
structure IsoStr where
  instant : Int
deriving Repr, DecidableEq

/-- One serialized event `{"dt": ev["dt"].isoformat(), "status": ...}`. -/
structure SerialEv where
  dt : IsoStr
  status : String
deriving Repr, DecidableEq

/-- One serialized record as written by `save_hist`. -/
structure SerialRec where
  name : String
  icao : Option String
  current : String
  events : List SerialEv
deriving Repr, DecidableEq

/-- `save_hist(hist)`: the JSON-shaped image written to `status.json`
(the file write itself is the excluded persistence collaborator). -/
def save_hist (h : HistT) : List (String × SerialRec) :=
  h.map (fun p => (p.1,
    ⟨p.2.name, p.2.icao, p.2.current,
     p.2.events.map (fun ev => ⟨⟨ev.dt⟩, ev.status⟩)⟩))

/-- `datetime.fromisoformat(s).astimezone(MSK)`: parsing recovers the
instant and `astimezone` preserves it. -/
def fromisoformatMSK (s : IsoStr) : Int := s.instant

/-- `load_hist()` on a previously saved map: each event's `dt` string
is parsed back into a datetime in the MSK zone, everything else is
read as stored.  (The `FileNotFoundError → {}` branch and the file
read are the excluded persistence collaborator.) -/
def load_hist (s : List (String × SerialRec)) : HistT :=
  s.map (fun p => (p.1,
    ⟨p.2.name, p.2.icao,
     p.2.events.map (fun ev => ⟨fromisoformatMSK ev.dt, ev.status⟩),
     p.2.current⟩))

-- ───── helper lemmas shared by the claim theorems ─────

theorem allStr_of_all_vStr (vs : List Val)
    (h : ∀ v ∈ vs, ∃ s, v = Val.vStr s) :
    ∃ ss, allStr? vs = some ss := by
  induction vs with
  | nil => exact ⟨[], rfl⟩
  | cons v t ih =>
    rcases h v (List.mem_cons_self _ _) with ⟨s, rfl⟩
    rcases ih (fun w hw => h w (List.mem_cons_of_mem _ hw)) with ⟨ss, hss⟩
    exact ⟨s :: ss, by simp [allStr?, hss]⟩

/-- `strOrAbsent f` says a text field is absent or holds a plain string
(the shapes for which Python's `"\n".join` does not raise). -/
def strOrAbsent : Option Val → Prop
  | none => True
  | some (.vStr _) => True
  | some _ => False

-- ───── claims ─────

/-- **C1.** `recompute_periods` derives the closure periods in one
linear scan: a `closed` event while no period is open starts a period
at that timestamp; an `open` event while a period is open closes it
with end equal to that timestamp and duration end − start; an `open`
event with no open period and a `closed` event with an open period are
no-ops; a trailing unclosed period is emitted with the ongoing marker
and duration against the wall clock `now`.  In particular
`[(t1, closed), (t2, open)]` with `t1 < t2` yields exactly
`[{start t1, end t2, dur t2 − t1}]` and `[(t1, closed)]` yields
exactly the ongoing period `[{start t1, ongoing, dur now − t1}]`. -/
theorem C1_interval_reconstruction (now t1 t2 : Int) :
    (∀ (t : Int) (rest : List Ev),
      recomputeGo now none (⟨t, "closed"⟩ :: rest) = recomputeGo now (some t) rest)
  ∧ (∀ (t : Int) (rest : List Ev),
      recomputeGo now none (⟨t, "open"⟩ :: rest) = recomputeGo now none rest)
  ∧ (∀ (s t : Int) (rest : List Ev),
      recomputeGo now (some s) (⟨t, "closed"⟩ :: rest) = recomputeGo now (some s) rest)
  ∧ (∀ (s t : Int) (rest : List Ev),
      recomputeGo now (some s) (⟨t, "open"⟩ :: rest) =
        ⟨s, some t, t - s⟩ :: recomputeGo now none rest)
  ∧ (∀ s : Int, recomputeGo now (some s) [] = [⟨s, none, now - s⟩])
  ∧ (t1 < t2 →
      recompute_periods now [⟨t1, "closed"⟩, ⟨t2, "open"⟩] = [⟨t1, some t2, t2 - t1⟩])
  ∧ recompute_periods now [⟨t1, "closed"⟩] = [⟨t1, none, now - t1⟩] := by
  refine ⟨fun t rest => by simp [recomputeGo],
          fun t rest => by simp [recomputeGo],
          fun s t rest => by simp [recomputeGo],
          fun s t rest => by simp [recomputeGo],
          fun s => by simp [recomputeGo],
          fun _ => by simp [recompute_periods, recomputeGo],
          by simp [recompute_periods, recomputeGo]⟩

/-- Witness for C1 at a concrete log. -/
theorem C1_interval_reconstruction_witness :
    recompute_periods 100 [⟨1, "closed"⟩, ⟨5, "open"⟩] = [⟨1, some 5, 4⟩]
  ∧ recompute_periods 100 [⟨1, "closed"⟩] = [⟨1, none, 99⟩] :=
  ⟨(C1_interval_reconstruction 100 1 5).2.2.2.2.2.1 (by decide),
   (C1_interval_reconstruction 100 1 5).2.2.2.2.2.2⟩

/-- **C4.** `classify` tests the closed pattern first and the opened
pattern second, first match winning, so a text matching both patterns
is classified `closed`; a text matching neither pattern yields `None`,
and such an item is dropped by `process` before reaching the resolver
(the run state, history map and name directory alike, is unchanged). -/
theorem C4_classifier_priority (L : Libs) :
    (∀ txt, L.rxClosedSearch txt = true → L.rxOpenSearch txt = true →
      classify L txt = some "closed")
  ∧ (∀ txt, L.rxClosedSearch txt = false → L.rxOpenSearch txt = false →
      classify L txt = none)
  ∧ (∀ (s : PState) (e : Item) (txt : String),
      full_text L e = .ok txt → classify L txt = none →
      processItem L s e = .ok s) := by
  refine ⟨fun txt h1 _ => by simp [classify, h1],
          fun txt h1 h2 => by simp [classify, h1, h2],
          fun s e txt h1 h2 => by simp [processItem, h1, h2]⟩

/-- All-identity library oracle: both status regexes match, every
other call is the identity or a constant. -/
def bothLibs : Libs :=
  ⟨fun _ => true, fun _ => true, id, id, id, id, fun _ => [], fun _ _ => false,
   fun _ => some 0⟩

/-- Library oracle where neither status regex matches. -/
def noneLibs : Libs :=
  ⟨fun _ => false, fun _ => false, id, id, id, id, fun _ => [], fun _ _ => false,
   fun _ => some 0⟩

/-- Witness for C4: a text matching both patterns classifies `closed`;
an item matching neither leaves the state untouched. -/
theorem C4_classifier_priority_witness :
    classify bothLibs "x" = some "closed"
  ∧ processItem noneLibs ⟨[], ⟨[], []⟩⟩ ⟨some (.vStr "x"), none, none, none, none, none⟩ =
      .ok ⟨[], ⟨[], []⟩⟩ :=
  ⟨(C4_classifier_priority bothLibs).1 "x" rfl rfl,
   (C4_classifier_priority noneLibs).2.2 ⟨[], ⟨[], []⟩⟩ _ "x\n\n" rfl rfl⟩

/-- **C7 counterexample.** The original claim says `full_text` never
raises regardless of the shape of the text fields; but an item whose
`title` holds a non-string (here the integer 5) makes
`"\n".join(parts)` raise `TypeError`. -/
theorem C7_full_text_counterexample :
    full_text noneLibs ⟨some (.vInt 5), none, none, none, none, none⟩ =
      .error "TypeError: sequence item is not a str" := rfl

/-- **C7 (amended).** `full_text` never raises provided each of
title/summary/description is absent or a string and every part
contributed by `content` is a string; absent fields contribute
nothing, non-dict entries of a content list and content of unexpected
shape contribute nothing, and the result is the canonical Unicode
composition of the HTML-unescaped joined text.  (A non-string value in
one of the three plain text fields, however, raises — see the
counterexample.) -/
theorem C7_full_text_total_on_strings (L : Libs) :
    (∀ e : Item, strOrAbsent e.title → strOrAbsent e.summary → strOrAbsent e.description →
      (∀ v ∈ contentParts e.content, ∃ s, v = Val.vStr s) →
      ∃ raw, full_text L e = .ok (normalize L raw))
  ∧ (∀ n : Int, contentParts (some (.vInt n)) = [])
  ∧ contentParts (some .vOther) = []
  ∧ contentParts none = [] := by
  refine ⟨?_, fun n => rfl, rfl, rfl⟩
  intro e h1 h2 h3 h4
  have hall : ∀ v ∈ ([(e.title).getD (.vStr ""), (e.summary).getD (.vStr ""),
      (e.description).getD (.vStr "")] ++ contentParts e.content), ∃ s, v = Val.vStr s := by
    intro v hv
    rcases List.mem_append.1 hv with hv | hv
    · have hfield : ∀ f : Option Val, strOrAbsent f → ∃ s, (f.getD (.vStr "")) = Val.vStr s := by
        intro f hf
        match f with
        | none => exact ⟨"", rfl⟩
        | some (.vStr s) => exact ⟨s, rfl⟩
        | some (.vInt _) => exact absurd hf not_false
        | some (.vList _) => exact absurd hf not_false
        | some (.vDict _) => exact absurd hf not_false
        | some .vOther => exact absurd hf not_false
      rcases List.mem_cons.1 hv with rfl | hv
      · exact hfield e.title h1
      rcases List.mem_cons.1 hv with rfl | hv
      · exact hfield e.summary h2
      rcases List.mem_cons.1 hv with rfl | hv
      · exact hfield e.description h3
      · simp at hv
    · exact h4 v hv
  rcases allStr_of_all_vStr _ hall with ⟨ss, hss⟩
  refine ⟨String.intercalate "\n" ss, ?_⟩
  simp only [List.cons_append, List.nil_append] at hss
  simp [full_text, pyJoinNl, hss]

/-- Witness for C7 (amended) at a concrete item. -/
theorem C7_full_text_total_on_strings_witness :
    ∃ raw, full_text noneLibs
      ⟨some (.vStr "a"), none, some (.vStr "b"),
       some (.vList [.vDict [("value", .vStr "c")], .vInt 3]), none, none⟩ =
      .ok (normalize noneLibs raw) :=
  (C7_full_text_total_on_strings noneLibs).1 _ trivial trivial trivial
    (by intro v hv; simp [contentParts, dgetD, hget] at hv; exact ⟨"c", hv⟩)

/-- **C8.** Saving a history map with `save_hist` and loading the
result with `load_hist` yields the same map: same keys and, per
entity, the same name, identifier, current status and event sequence
(same instants, same statuses) — so interval reconstruction from the
reloaded map reproduces exactly the closed-period boundaries of the
original. -/
theorem C8_persistence_roundtrip (h : HistT) :
    load_hist (save_hist h) = h
  ∧ ∀ (now : Int) (k : String),
      (hget (load_hist (save_hist h)) k).map (fun r => recompute_periods now r.events) =
        (hget h k).map (fun r => recompute_periods now r.events) := by
  have hmain : load_hist (save_hist h) = h := by
    show (save_hist h).map _ = h
    unfold save_hist
    rw [List.map_map]
    refine List.map_id'' (fun p => ?_) h
    simp only [Function.comp_apply, List.map_map]
    have hev : p.2.events.map
        ((fun ev : SerialEv => (⟨fromisoformatMSK ev.dt, ev.status⟩ : Ev)) ∘
         (fun ev : Ev => (⟨⟨ev.dt⟩, ev.status⟩ : SerialEv))) = p.2.events :=
      List.map_id'' (fun ev => rfl) p.2.events
    rw [hev]
  exact ⟨hmain, fun now k => by rw [hmain]⟩

/-- **C9.** `extract_airports` is deterministic: from the same text
and the same starting name-directory state, two calls return the same
candidate key set (the embedding threads the module-level mutable
directory and all library calls explicitly, so resolution is a pure
function and determinism is definitional). -/
theorem C9_resolver_determinism (L : Libs) (txt1 txt2 : String) (d1 d2 : Dir)
    (ht : txt1 = txt2) (hd : d1 = d2) :
    (extract_airports L txt1 d1).1.map (fun c => c.key) =
      (extract_airports L txt2 d2).1.map (fun c => c.key) := by
  subst ht; subst hd; rfl

/-- Library oracle for concrete runs: one identifier-bearing match,
closed-pattern always firing, ASCII lowercasing. -/
def cexLibs : Libs :=
  ⟨fun _ => true, fun _ => false, id, id, id,
   (fun s => String.mk (s.toList.map Char.toLower)),
   fun _ => [("Lipetsk", "UUOL")], fun _ _ => false, fun _ => some 50⟩

/-- Witness for C9: the key set of two identical calls, evaluated
concretely. -/
theorem C9_resolver_determinism_witness :
    (extract_airports cexLibs "x" ⟨[], []⟩).1.map (fun c => c.key) = ["UUOL"] :=
  (C9_resolver_determinism cexLibs "x" "x" ⟨[], []⟩ ⟨[], []⟩ rfl rfl).trans (by rfl)

-- ───── further helper lemmas (association-list keys, sublists) ─────

theorem herase_sublist (h : List (String × α)) (k : String) :
    (herase h k).Sublist h := by
  induction h with
  | nil => simp [herase]
  | cons p t ih =>
    by_cases hp : p.1 = k
    · simp only [herase, hp, beq_self_eq_true, if_pos]
      exact ih.cons p
    · simp only [herase, beq_iff_eq, hp, if_neg, not_false_eq_true]
      exact ih.cons₂ p

theorem keys_hset_mem (h : List (String × α)) (k : String) (v : α) (a : String)
    (ha : a ∈ (hset h k v).map (fun p => p.1)) : a ∈ h.map (fun p => p.1) ∨ a = k := by
  rcases List.mem_map.1 ha with ⟨p, hp, rfl⟩
  rcases mem_hset h k v p hp with h1 | rfl
  · exact Or.inl (List.mem_map_of_mem _ h1)
  · exact Or.inr rfl

theorem nodup_keys_hset (h : List (String × α)) (k : String) (v : α)
    (hnd : (h.map (fun p => p.1)).Nodup) :
    ((hset h k v).map (fun p => p.1)).Nodup := by
  induction h with
  | nil => simp [hset]
  | cons p t ih =>
    simp only [List.map_cons, List.nodup_cons] at hnd
    by_cases hp : p.1 = k
    · simp only [hset, hp, beq_self_eq_true, if_pos, List.map_cons]
      exact List.nodup_cons.2 ⟨by rw [← hp]; exact hnd.1, hnd.2⟩
    · simp only [hset, beq_iff_eq, hp, if_neg, not_false_eq_true, List.map_cons]
      refine List.nodup_cons.2 ⟨?_, ih hnd.2⟩
      intro hmem
      rcases keys_hset_mem t k v p.1 hmem with h1 | h1
      · exact hnd.1 h1
      · exact hp h1

theorem nodup_keys_herase (h : List (String × α)) (k : String)
    (hnd : (h.map (fun p => p.1)).Nodup) :
    ((herase h k).map (fun p => p.1)).Nodup :=
  List.Nodup.sublist ((herase_sublist h k).map _) hnd

/-- **C2.** When a candidate carrying a canonical identifier triggers
reconciliation while both the provisional-slug record (events `E1`)
and the canonical record (events `E2`) are in the history map, the
merge leaves exactly one record for the entity: the canonical key maps
to a record whose event log is the union `E1 ++ E2` stably sorted
ascending by timestamp, whose current status is the status of the
chronologically last merged event, and the provisional key is absent
afterwards (key uniqueness is preserved).  The candidate's own event
is appended afterwards by the separate history-store step. -/
theorem C2_reconciliation_merge (h : HistT) (sk ik : String) (r1 r2 : Rec)
    (hne : sk ≠ ik)
    (hnd : (h.map (fun p => p.1)).Nodup)
    (h1 : hget h sk = some r1) (h2 : hget h ik = some r2)
    (_hev : r1.events ++ r2.events ≠ []) :
    hget (merge_slug h sk ik) ik =
      some ⟨r2.name, r2.icao, pySortEvs (r1.events ++ r2.events),
            ((pySortEvs (r1.events ++ r2.events)).getLastD dummyEv).status⟩
  ∧ hget (merge_slug h sk ik) sk = none
  ∧ (pySortEvs (r1.events ++ r2.events)).Perm (r1.events ++ r2.events)
  ∧ (pySortEvs (r1.events ++ r2.events)).Pairwise (fun a b => a.dt ≤ b.dt)
  ∧ ((merge_slug h sk ik).map (fun p => p.1)).Nodup := by
  have hms : merge_slug h sk ik =
      herase (hset h ik ⟨r2.name, r2.icao, pySortEvs (r1.events ++ r2.events),
        ((pySortEvs (r1.events ++ r2.events)).getLastD dummyEv).status⟩) sk := by
    simp [merge_slug, h1, h2]
  refine ⟨?_, ?_, ?_, ?_, ?_⟩
  · rw [hms, hget_herase_ne _ _ _ (Ne.symm hne), hget_hset_self]
  · rw [hms, hget_herase_self]
  · exact List.perm_insertionSort _ _
  · haveI : IsTotal Ev (fun a b => a.dt ≤ b.dt) := ⟨fun a b => Int.le_total a.dt b.dt⟩
    haveI : IsTrans Ev (fun a b => a.dt ≤ b.dt) := ⟨fun a b c hab hbc => le_trans hab hbc⟩
    exact List.sorted_insertionSort _ _
  · rw [hms]
    exact nodup_keys_herase _ _ (nodup_keys_hset _ _ _ hnd)

/-- Concrete two-record history for the C2 witness: a provisional
record with two events and a canonical record with a later event. -/
def c2hist : HistT :=
  [("lipetsk", ⟨"Lipetsk", none, [⟨5, "closed"⟩, ⟨9, "closed"⟩], "closed"⟩),
   ("UUOL", ⟨"Липецк", some "UUOL", [⟨12, "open"⟩], "open"⟩)]

/-- Witness for C2 at the concrete history. -/
theorem C2_reconciliation_merge_witness :
    hget (merge_slug c2hist "lipetsk" "UUOL") "UUOL" =
      some ⟨"Липецк", some "UUOL",
            [⟨5, "closed"⟩, ⟨9, "closed"⟩, ⟨12, "open"⟩], "open"⟩
  ∧ hget (merge_slug c2hist "lipetsk" "UUOL") "lipetsk" = none := by
  have h := C2_reconciliation_merge c2hist "lipetsk" "UUOL"
      ⟨"Lipetsk", none, [⟨5, "closed"⟩, ⟨9, "closed"⟩], "closed"⟩
      ⟨"Липецк", some "UUOL", [⟨12, "open"⟩], "open"⟩
      (by decide) (by decide) (by decide) (by decide) (by decide)
  exact ⟨h.1.trans (by decide), h.2.1⟩

/-- **C10.** `msg_id` is total: it returns the decimal integer forming
the final path segment of the item's link, `0` when the link is absent
(the empty string has no digits) or when the final segment is not a
decimal integer.  `process` iterates items in ascending `msg_id`
order, so an item lacking a numeric link id is never ordered after an
item with a positive link id. -/
theorem C10_msg_id_total_and_ordering :
    (∀ e : Item, e.link = none → msg_id e = 0)
  ∧ (∀ (e : Item) (n : Int), pyInt? (linkLastSegment e) = some n → msg_id e = n)
  ∧ (∀ e : Item, pyInt? (linkLastSegment e) = none → msg_id e = 0)
  ∧ (∀ entries : List Item,
      (sortEntries entries).Pairwise (fun a b => msg_id a ≤ msg_id b))
  ∧ (∀ (entries : List Item) (i j : Nat)
      (hi : i < (sortEntries entries).length) (hj : j < (sortEntries entries).length),
      i < j → 0 < msg_id ((sortEntries entries).get ⟨i, hi⟩) →
      msg_id ((sortEntries entries).get ⟨j, hj⟩) ≠ 0) := by
  have hpair : ∀ entries : List Item,
      (sortEntries entries).Pairwise (fun a b => msg_id a ≤ msg_id b) := by
    intro entries
    haveI : IsTotal Item (fun a b => msg_id a ≤ msg_id b) :=
      ⟨fun a b => Int.le_total (msg_id a) (msg_id b)⟩
    haveI : IsTrans Item (fun a b => msg_id a ≤ msg_id b) :=
      ⟨fun a b c hab hbc => le_trans hab hbc⟩
    exact List.sorted_insertionSort _ entries
  refine ⟨?_, ?_, ?_, hpair, ?_⟩
  · intro e h
    simp only [msg_id, linkLastSegment, h]
    rfl
  · intro e n h
    simp only [msg_id, h]
  · intro e h
    simp only [msg_id, h]
  · intro entries i j hi hj hij hpos
    have := (List.pairwise_iff_getElem.1 (hpair entries)) i j hi hj hij
    simp only [List.get_eq_getElem] at hpos ⊢
    omega

/-- Items for the C10 witness: a numeric link, and two positive ids to
exhibit the ordering. -/
def c10a : Item := ⟨none, none, none, none, none, some (.vStr "https://t.me/korenyako/123")⟩

/-- Second C10 witness item, smaller id. -/
def c10b : Item := ⟨none, none, none, none, none, some (.vStr "https://t.me/korenyako/5/")⟩

/-- Witness for C10: totality equations at concrete items and the
ordering consequence at a concrete sorted pair. -/
theorem C10_msg_id_total_and_ordering_witness :
    msg_id ⟨none, none, none, none, none, none⟩ = 0
  ∧ msg_id c10a = 123
  ∧ msg_id ⟨none, none, none, none, none, some (.vStr "https://t.me/x/abc")⟩ = 0
  ∧ msg_id ((sortEntries [c10a, c10b]).get ⟨1, by decide⟩) ≠ 0 :=
  ⟨C10_msg_id_total_and_ordering.1 _ rfl,
   C10_msg_id_total_and_ordering.2.1 c10a 123 (by decide),
   C10_msg_id_total_and_ordering.2.2.1 _ (by decide),
   C10_msg_id_total_and_ordering.2.2.2.2 [c10a, c10b] 0 1 (by decide) (by decide)
     (by decide) (by decide)⟩

theorem mem_uniq_fold (l : List Cand) (u : List (String × Cand)) (p : String × Cand)
    (hp : p ∈ l.foldl (fun u c => hset u c.key c) u) : p ∈ u ∨ p.2 ∈ l := by
  induction l generalizing u with
  | nil => exact Or.inl hp
  | cons c t ih =>
    rcases ih (hset u c.key c) hp with h1 | h1
    · rcases mem_hset u c.key c p h1 with h2 | h2
      · exact Or.inl h2
      · exact Or.inr (by rw [h2]; exact List.mem_cons_self _ _)
    · exact Or.inr (List.mem_cons_of_mem _ h1)

/-- Starting history for the C3 counterexample: a provisional record
(slug key, no identifier) created before the identifier was known. -/
def c3hist : HistT := [("lipetsk", ⟨"Lipetsk", none, [⟨10, "closed"⟩], "closed"⟩)]

/-- Feed item for the C3 counterexample (its text carries the
identifier via the `cexLibs` oracle). -/
def c3item : Item := ⟨some (.vStr "t"), none, none, none, some "p", none⟩

/-- **C3 counterexample.**  The claim says a provisional-slug record
and its canonical-identifier record never coexist once the identifier
has been observed.  But processing a candidate that supplies the
identifier `UUOL` for the name `Lipetsk`, while the provisional record
`lipetsk` (with no identifier) is in the map and `UUOL` is not,
creates a second record under `UUOL` and leaves both keys present. -/
theorem C3_coexistence_counterexample :
    (match process cexLibs ⟨c3hist, ⟨[], []⟩⟩ [c3item] with
     | .ok s => ((hget s.hist (slug cexLibs "Lipetsk")).isSome &&
                 (hget s.hist "UUOL").isSome)
     | .error _ => false) = true := by decide

/-- **C3 (amended).**  Every candidate that carries an identifier uses
the identifier itself as its key, so the in-place promotion branch of
`process` (rename of a provisional key) never fires.  Consequently,
when a candidate first supplies an identifier for a name whose
provisional-slug record (without identifier) exists while the
identifier key is absent, a second record is created under the
identifier key and the two records coexist.  The coexistence is
resolved lazily: a candidate carrying the identifier processed while
both records are present merges them and removes the provisional
key. -/
theorem C3_promotion_and_lazy_merge (L : Libs) :
    (∀ (txt : String) (d : Dir) (c : Cand) (i : String),
      c ∈ (extract_airports L txt d).1 → c.icao = some i → c.key = i)
  ∧ (∀ (dtv : Int) (status : String) (hist : HistT) (c : Cand) (i : String) (r : Rec),
      c.icao = some i → c.key = i → slug L c.name ≠ i →
      hget hist i = none → hget hist (slug L c.name) = some r →
      (hget (processCand L dtv status hist c) (slug L c.name)).isSome = true
      ∧ (hget (processCand L dtv status hist c) i).isSome = true)
  ∧ (∀ (dtv : Int) (status : String) (hist : HistT) (c : Cand) (i : String) (ri rs : Rec),
      c.icao = some i → c.key = i → slug L c.name ≠ i →
      hget hist i = some ri → hget hist (slug L c.name) = some rs →
      hget (processCand L dtv status hist c) (slug L c.name) = none) := by
  refine ⟨?_, ?_, ?_⟩
  · intro txt d c i hc hi
    simp only [extract_airports] at hc
    rcases List.mem_map.1 hc with ⟨p, hp, rfl⟩
    rcases mem_uniq_fold _ _ _ hp with h1 | h1
    · simp at h1
    · rcases List.mem_append.1 h1 with h2 | h2
      · rcases List.mem_map.1 h2 with ⟨q, _, hq⟩
        rw [← hq] at hi ⊢
        simp only at hi ⊢
        exact Option.some.inj hi
      · rcases List.mem_filterMap.1 h2 with ⟨name, _, hf⟩
        split at hf
        · rw [Option.some.injEq] at hf
          rw [← hf] at hi ⊢
          simp only at hi ⊢
          rw [hi]
          rfl
        · exact absurd hf (by simp)
  · intro dtv status hist c i r hic hkey hslug hni hsl
    have hms : candMergeStep L hist c = hist := by
      simp [candMergeStep, hic, hni]
    have hr0 : hget hist c.key = (none : Option Rec) := by rw [hkey]; exact hni
    have hpc : processCand L dtv status hist c =
        hset hist c.key ⟨c.name, c.icao, [⟨dtv, status⟩], status⟩ := by
      simp only [processCand, hms, hr0, Option.getD_none]
      simp [candPromoteStep, hic]
    rw [hpc, hkey]
    constructor
    · rw [hget_hset_ne _ _ _ _ hslug, hsl]; rfl
    · rw [hget_hset_self]; rfl
  · intro dtv status hist c i ri rs hic hkey hslug hri hrs
    have hms : candMergeStep L hist c =
        herase (hset hist i ⟨ri.name, ri.icao, pySortEvs (rs.events ++ ri.events),
          ((pySortEvs (rs.events ++ ri.events)).getLastD dummyEv).status⟩)
          (slug L c.name) := by
      simp only [candMergeStep, hic, hri, hrs, Option.isSome_some, and_self, if_pos]
      simp [merge_slug, hri, hrs]
    have hstep : ∀ r0 : Rec,
        (candPromoteStep (candMergeStep L hist c) r0 c).1 = c.key
        ∧ (candPromoteStep (candMergeStep L hist c) r0 c).2.1 = candMergeStep L hist c := by
      intro r0
      cases hX : r0.icao with
      | none => simp [candPromoteStep, hX, hic, hkey]
      | some j => simp [candPromoteStep, hX, hic]
    have hpc : hget (processCand L dtv status hist c) (slug L c.name) =
        hget (candMergeStep L hist c) (slug L c.name) := by
      simp only [processCand]
      rw [(hstep _).1, (hstep _).2, hkey, hget_hset_ne _ _ _ _ hslug]
    rw [hpc, hms, hget_herase_self]

/-- Witness for C3 (amended): the concrete coexistence creation and
its later lazy resolution. -/
theorem C3_promotion_and_lazy_merge_witness :
    ((hget (processCand cexLibs 50 "closed" c3hist ⟨"UUOL", "Lipetsk", some "UUOL"⟩)
        "lipetsk").isSome = true
      ∧ (hget (processCand cexLibs 50 "closed" c3hist ⟨"UUOL", "Lipetsk", some "UUOL"⟩)
        "UUOL").isSome = true)
  ∧ hget (processCand cexLibs 60 "closed"
        (processCand cexLibs 50 "closed" c3hist ⟨"UUOL", "Lipetsk", some "UUOL"⟩)
        ⟨"UUOL", "Lipetsk", some "UUOL"⟩) "lipetsk" = none :=
  ⟨(C3_promotion_and_lazy_merge cexLibs).2.1 50 "closed" c3hist
      ⟨"UUOL", "Lipetsk", some "UUOL"⟩ "UUOL"
      ⟨"Lipetsk", none, [⟨10, "closed"⟩], "closed"⟩
      rfl rfl (by decide) (by decide) (by decide),
   (C3_promotion_and_lazy_merge cexLibs).2.2 60 "closed"
      (processCand cexLibs 50 "closed" c3hist ⟨"UUOL", "Lipetsk", some "UUOL"⟩)
      ⟨"UUOL", "Lipetsk", some "UUOL"⟩ "UUOL"
      ⟨"Lipetsk", some "UUOL", [⟨50, "closed"⟩], "closed"⟩
      ⟨"Lipetsk", none, [⟨10, "closed"⟩], "closed"⟩
      rfl rfl (by decide) (by decide) (by decide)⟩

-- ───── the history-store invariant (C5) ─────

/-- The history-store invariant: every record has a nonempty event log
and its cached `current` status is the status of the last event of the
log — the chronologically latest known signal under the order the log
is kept in (ascending append order within a run, itself ascending in
the `msg_id` surrogate order, re-sorted by timestamp at merges). -/
def HistInv (h : HistT) : Prop :=
  ∀ p ∈ h, p.2.events ≠ [] ∧ p.2.current = (p.2.events.getLastD dummyEv).status

theorem histInv_hset (h : HistT) (k : String) (r : Rec)
    (hr : r.events ≠ [] ∧ r.current = (r.events.getLastD dummyEv).status)
    (hinv : HistInv h) : HistInv (hset h k r) := by
  intro p hp
  rcases mem_hset h k r p hp with h1 | rfl
  · exact hinv p h1
  · exact hr

theorem histInv_herase (h : HistT) (k : String) (hinv : HistInv h) :
    HistInv (herase h k) :=
  fun p hp => hinv p (mem_herase h k p hp)

theorem histInv_merge_slug (h : HistT) (sk ik : String) (hinv : HistInv h) :
    HistInv (merge_slug h sk ik) := by
  unfold merge_slug
  split
  · rename_i rs ri h1 h2
    refine histInv_herase _ _ (histInv_hset _ _ _ ⟨?_, rfl⟩ hinv)
    have hrs : rs.events ≠ [] := (hinv (sk, rs) (hget_some_mem _ _ _ h1)).1
    have hlen : (pySortEvs (rs.events ++ ri.events)).length =
        (rs.events ++ ri.events).length :=
      (List.perm_insertionSort _ _).length_eq
    intro hemp
    have hemp' : pySortEvs (rs.events ++ ri.events) = [] := hemp
    rw [hemp'] at hlen
    simp only [List.length_nil, List.length_append] at hlen
    exact hrs (List.eq_nil_of_length_eq_zero (by omega))
  · exact hinv

theorem histInv_candMergeStep (L : Libs) (h : HistT) (c : Cand) (hinv : HistInv h) :
    HistInv (candMergeStep L h c) := by
  unfold candMergeStep
  split
  · split
    · exact histInv_merge_slug _ _ _ hinv
    · exact hinv
  · exact hinv

theorem histInv_processCand (L : Libs) (dtv : Int) (status : String) (h : HistT)
    (c : Cand) (hinv : HistInv h) : HistInv (processCand L dtv status h c) := by
  have hinv1 : HistInv (candMergeStep L h c) := histInv_candMergeStep L h c hinv
  have hmain : ∀ (h1 : HistT) (r0 : Rec), HistInv h1 →
      (hget h1 c.key = some r0 ∨ r0 = ⟨c.name, c.icao, [], ""⟩) →
      HistInv (hset (candPromoteStep h1 r0 c).2.1 (candPromoteStep h1 r0 c).1
        ⟨(candPromoteStep h1 r0 c).2.2.name, (candPromoteStep h1 r0 c).2.2.icao,
         (candPromoteStep h1 r0 c).2.2.events ++ [⟨dtv, status⟩], status⟩) := by
    intro h1 r0 hinv1 hr0
    refine histInv_hset _ _ _ ⟨by simp, by rw [List.getLastD_concat]⟩ ?_
    unfold candPromoteStep
    split
    · rename_i i hnone hsome
      have hr0mem : hget h1 c.key = some r0 := by
        rcases hr0 with h3 | rfl
        · exact h3
        · rw [hsome] at hnone
          exact absurd hnone (by simp)
      have hr0inv := hinv1 (c.key, r0) (hget_some_mem _ _ _ hr0mem)
      split
      · exact histInv_herase _ _ (histInv_hset _ _ _ ⟨hr0inv.1, hr0inv.2⟩ hinv1)
      · exact hinv1
    · exact hinv1
  exact hmain (candMergeStep L h c)
    ((hget (candMergeStep L h c) c.key).getD ⟨c.name, c.icao, [], ""⟩) hinv1
    (by
      cases hg : hget (candMergeStep L h c) c.key with
      | none => exact Or.inr rfl
      | some r => exact Or.inl rfl)

theorem histInv_foldl_processCand (L : Libs) (dtv : Int) (status : String)
    (cands : List Cand) (h : HistT) (hinv : HistInv h) :
    HistInv (cands.foldl (processCand L dtv status) h) := by
  induction cands generalizing h with
  | nil => exact hinv
  | cons c t ih => exact ih _ (histInv_processCand L dtv status h c hinv)

theorem histInv_processItem (L : Libs) (s s' : PState) (e : Item)
    (hinv : HistInv s.hist) (h : processItem L s e = .ok s') : HistInv s'.hist := by
  unfold processItem at h
  split at h
  · exact absurd h (by simp)
  · split at h
    · rw [Except.ok.injEq] at h
      exact h ▸ hinv
    · split at h
      · exact absurd h (by simp)
      · split at h
        · exact absurd h (by simp)
        · rw [Except.ok.injEq] at h
          rw [← h]
          exact histInv_foldl_processCand _ _ _ _ _ hinv

theorem histInv_processItems (L : Libs) (s s' : PState) (es : List Item)
    (hinv : HistInv s.hist) (h : processItems L s es = .ok s') : HistInv s'.hist := by
  induction es generalizing s with
  | nil =>
    unfold processItems at h
    rw [Except.ok.injEq] at h
    exact h ▸ hinv
  | cons e t ih =>
    unfold processItems at h
    split at h
    · rename_i s1 h1
      exact ih s1 (histInv_processItem L s s1 e hinv h1) h
    · exact absurd h (by simp)

/-- The items actually iterated by `process` are the feed entries in
ascending `msg_id` order (shared by the C5 and C10 statements). -/
theorem sortEntries_sorted (entries : List Item) :
    (sortEntries entries).Pairwise (fun a b => msg_id a ≤ msg_id b) := by
  haveI : IsTotal Item (fun a b => msg_id a ≤ msg_id b) :=
    ⟨fun a b => Int.le_total (msg_id a) (msg_id b)⟩
  haveI : IsTrans Item (fun a b => msg_id a ≤ msg_id b) :=
    ⟨fun a b c hab hbc => le_trans hab hbc⟩
  exact List.sorted_insertionSort _ entries

/-- **C5.** After a run of `process`, every record of the history map
has a nonempty event log whose cached current status equals the status
of the last event of the log — the chronologically latest known signal
in the order the log is kept in (events of a run are appended in the
defined surrogate total order, ascending `msg_id`, and merges re-sort
by timestamp), not the arrival order of network responses: the loop
iterates a `msg_id`-sorted permutation of the fetched entries. -/
theorem C5_current_is_latest (L : Libs) (s s' : PState) (entries : List Item)
    (hinv : HistInv s.hist) (hrun : process L s entries = .ok s') :
    HistInv s'.hist
  ∧ (sortEntries entries).Pairwise (fun a b => msg_id a ≤ msg_id b)
  ∧ (sortEntries entries).Perm entries :=
  ⟨histInv_processItems L s s' (sortEntries entries) hinv hrun,
   sortEntries_sorted entries,
   List.perm_insertionSort _ entries⟩

/-- Concrete history for the C5 witness. -/
def c5hist : HistT := [("UUWW", ⟨"Внуково", some "UUWW", [⟨1, "closed"⟩], "closed"⟩)]

/-- Witness for C5: a run over one no-signal item from a valid store. -/
theorem C5_current_is_latest_witness :
    HistInv c5hist
  ∧ (sortEntries [c3item]).Pairwise (fun a b => msg_id a ≤ msg_id b)
  ∧ (sortEntries [c3item]).Perm [c3item] :=
  C5_current_is_latest noneLibs ⟨c5hist, ⟨[], []⟩⟩ ⟨c5hist, ⟨[], []⟩⟩ [c3item]
    (by
      intro p hp
      rcases List.mem_singleton.1 hp with rfl
      exact ⟨by simp, rfl⟩)
    (by rfl)

-- ───── unparseable timestamps (C6) ─────

/-- Library oracle whose timestamp parser always fails. -/
def c6Libs : Libs :=
  ⟨fun _ => true, fun _ => false, id, id, id, id, fun _ => [], fun _ _ => false,
   fun _ => none⟩

/-- A signal-bearing item whose publication timestamp cannot be parsed. -/
def c6bad : Item := ⟨some (.vStr "z"), none, none, none, some "not-a-date", none⟩

/-- A well-formed item following the bad one in the feed. -/
def c6good : Item := ⟨some (.vStr "y"), none, none, none, some "2025-06-17", none⟩

/-- **C6 counterexample.**  The claim says an unparseable publication
timestamp makes `process` skip that single item and continue; but the
`dparse.parse` call has no exception handler, so the error propagates
and the whole run aborts — the well-formed item after the bad one is
never processed and no state survives. -/
theorem C6_skip_counterexample :
    process c6Libs ⟨[], ⟨[], []⟩⟩ [c6bad, c6good] =
      .error "dateutil.parser.ParserError" := rfl

/-- **C6 (amended).**  An item whose publication timestamp fails to
parse aborts the whole run when the item carries a classification
signal (the exception propagates out of the loop, so the remaining
items are not processed); only items with no signal are skipped before
the timestamp is parsed. -/
theorem C6_bad_timestamp_aborts_run (L : Libs) :
    (∀ (s : PState) (e : Item) (txt status p : String),
      full_text L e = .ok txt → classify L txt = some status →
      e.published = some p → L.parseDt p = none →
      processItem L s e = .error "dateutil.parser.ParserError")
  ∧ (∀ (s : PState) (e : Item) (es : List Item) (m : String),
      processItem L s e = .error m → processItems L s (e :: es) = .error m)
  ∧ (∀ (s : PState) (e : Item) (txt : String),
      full_text L e = .ok txt → classify L txt = none →
      processItem L s e = .ok s) := by
  refine ⟨?_, ?_, ?_⟩
  · intro s e txt status p h1 h2 h3 h4
    simp [processItem, h1, h2, h3, h4]
  · intro s e es m h
    unfold processItems
    rw [h]
  · intro s e txt h1 h2
    simp [processItem, h1, h2]

/-- Witness for C6 (amended) at the concrete run of the counterexample. -/
theorem C6_bad_timestamp_aborts_run_witness :
    processItem c6Libs ⟨[], ⟨[], []⟩⟩ c6bad = .error "dateutil.parser.ParserError"
  ∧ processItems c6Libs ⟨[], ⟨[], []⟩⟩ [c6bad, c6good] =
      .error "dateutil.parser.ParserError" :=
  ⟨(C6_bad_timestamp_aborts_run c6Libs).1 ⟨[], ⟨[], []⟩⟩ c6bad "z\n\n" "closed"
      "not-a-date" rfl rfl rfl rfl,
   (C6_bad_timestamp_aborts_run c6Libs).2.1 ⟨[], ⟨[], []⟩⟩ c6bad [c6good] _
     ((C6_bad_timestamp_aborts_run c6Libs).1 ⟨[], ⟨[], []⟩⟩ c6bad "z\n\n" "closed"
       "not-a-date" rfl rfl rfl rfl)⟩

end AirportStatus

